import Mathlib

/-!
Shallow embedding of `src/power.py` (the per-device power scheduling engine)
for verification against the specification.

Conventions of the embedding:
* a Python `datetime.time` (a time of day in UTC) is modelled as a `Nat`
  counting seconds since midnight; only its linear order and equality are used
  by the scheduling code;
* the power states `ON = True`, `OFF = False` (power.py lines 15-16) are
  modelled as `Bool`;
* a schedule entry `(time, state)` as built by `PowerScheduler.__init__`
  (power.py lines 145-146) is a pair `Nat × Bool`;
* Python code that can raise is modelled with `Option`/`Except`: an
  out-of-range index or a method call on `None` yields `none`/`.error`.
-/

namespace Aquaman

/-- Power state as in power.py lines 15-16: `ON = True`. -/
def ON : Bool := true

/-- Power state as in power.py lines 15-16: `OFF = False`. -/
def OFF : Bool := false

/-- A schedule table entry `(timeOfDay, targetState)` exactly as the tuples
`(x, ON)` / `(x, OFF)` built in `PowerScheduler.__init__` (lines 145-146). -/
abbrev Event := Nat × Bool

/-- Comparison used by `sorted(self.states, key=lambda x: x[0])`
(power.py line 146): compare entries by their time component only. -/
def eventLE (a b : Event) : Prop := a.1 ≤ b.1

instance : DecidableRel eventLE := fun a b => Nat.decLe a.1 b.1

instance : IsTotal Event eventLE := ⟨fun a b => Nat.le_total a.1 b.1⟩

instance : IsTrans Event eventLE := ⟨fun _ _ _ hab hbc => Nat.le_trans hab hbc⟩

/-- The merged, unsorted entry list
`[(x, ON) for x in on_times] + [(x, OFF) for x in off_times]`
(power.py line 145). -/
def mergedPairs (on_times off_times : List Nat) : List Event :=
  on_times.map (fun x => (x, ON)) ++ off_times.map (fun x => (x, OFF))

/-- The event table `self.states` built by `PowerScheduler.__init__`
(power.py lines 145-146): the merged pair list sorted ascending by time with
Python's stable `sorted`, modelled by the stable `List.insertionSort`. -/
def mkStates (on_times off_times : List Nat) : List Event :=
  List.insertionSort eventLE (mergedPairs on_times off_times)

/-- Initial-state resolution performed once at the top of
`ThreadPowerScheduler.run` (power.py lines 257-265): iterate over the table
keeping the last entry with `s[0] <= now.time()`; when none qualifies fall
back to `self.states[len(self.states) - 1]`, the table's last entry.
An empty table gives `none`, modelling the `IndexError` the fallback
indexing would raise. The same selection is performed by the
`mark is None` branch of `PowerScheduler._next` (lines 221-233). -/
def resolveInitial (states : List Event) (now : Nat) : Option Event :=
  match states.foldl (fun acc e => if e.1 ≤ now then some e else acc) none with
  | some e => some e
  | none => states.getLast?

/-- Next-event scan of the thread loop (power.py lines 278-281):
`for s in self.states: if s[0] > state[0]: next_state = s; break` —
the first entry strictly later than the reference time. -/
def findNext (states : List Event) (t : Nat) : Option Event :=
  states.find? (fun e => t < e.1)

/-- Next-event query of `ThreadPowerScheduler.run` (power.py lines 277-290):
the first table entry strictly after the current entry's time, on the same
day (`dayOffset = 0`); when none exists, wrap to `self.states[0]` on the
next day (`dayOffset = 1`). An empty table gives `none`, modelling the
`IndexError` of `self.states[0]`. -/
def nextAfter (states : List Event) (cur : Event) : Option (Event × Nat) :=
  match findNext states cur.1 with
  | some e => some (e, 0)
  | none =>
    match states.head? with
    | some e => some (e, 1)
    | none => none

/-- Next-event scan of the timer variant `PowerScheduler._next` with a mark
(power.py lines 221-227): `for time, state in times: if time > mark.time():
next = (time, state)` — note the loop has no `break`, so it keeps
overwriting `next` and ends with the LAST entry strictly later than the
mark, not the first. -/
def schedNextScan (states : List Event) (mark : Nat) : Option Event :=
  states.foldl (fun acc e => if mark < e.1 then some e else acc) none

/-- Next-event query of the timer variant `PowerScheduler._next` with a mark
(power.py lines 216-244): the scan result with day offset 0, or on
wraparound `times[0]` with day offset 1 (`tomorrow`). -/
def schedNext (states : List Event) (mark : Nat) : Option (Event × Nat) :=
  match schedNextScan states mark with
  | some e => some (e, 0)
  | none =>
    match states.head? with
    | some e => some (e, 1)
    | none => none

/-- Trajectory of repeated next-event queries: the list of
`(event, dayOffset)` results of `n` successive `nextAfter` steps starting
from `e` (each step continues from the event the previous one returned, as
`state = next_state` / `state = self.states[0]` does in the loop,
power.py lines 287, 290). -/
def iterateNext (states : List Event) : Nat → Event → List (Event × Nat)
  | 0, _ => []
  | Nat.succ c, e =>
    match nextAfter states e with
    | some (e', d) => (e', d) :: iterateNext states c e'
    | none => []

/-- Event reached after `n` successive `nextAfter` steps from `e`. -/
def iterEnd (states : List Event) : Nat → Event → Option Event
  | 0, e => some e
  | Nat.succ c, e =>
    match nextAfter states e with
    | some (e', _) => iterEnd states c e'
    | none => none

/-- Python exceptions relevant to the modelled code. -/
inductive PyError where
  /-- `AttributeError`, e.g. calling `.cancel()` on `None`. -/
  | attributeError : PyError
  /-- `ValueError`, e.g. `time.sleep` on a negative number. -/
  | valueError : PyError
  deriving DecidableEq, Repr

/-- Model of Python's `time.sleep(d)`: raises `ValueError` for negative `d`,
otherwise blocks for `d` seconds (the slept duration is returned). -/
def pySleep (d : Int) : Except PyError Int :=
  if d < 0 then .error .valueError else .ok d

/-- Suspension step of the thread loop (power.py lines 292-296):
`delay = (next - now).total_seconds(); if delay >= 0: time.sleep(delay)`.
Instants are in seconds; when the guard fails the sleep is skipped, which
is modelled as a successful wait of 0 seconds. -/
def suspension (next now : Int) : Except PyError Int :=
  let delay := next - now
  if 0 ≤ delay then pySleep delay else .ok 0

/-- A pending `threading.Timer` as used by the timer variant: it carries the
scheduled entry (closed over by `schedule_on`/`schedule_off`) and whether
`cancel()` has been called on it. -/
structure TimerRec where
  ev : Event
  cancelled : Bool
  deriving DecidableEq, Repr

/-- State of a timer-variant `PowerScheduler` instance (power.py
lines 134-157): the constructor arguments, the derived `self.states` table,
the pending timer `self._timer` (initially `None`), and a log of the state
applications performed so far (the `turn_on`/`turn_off` calls made by fired
timers), used to express "no further state applications occur". -/
structure PowerSchedulerState where
  device : String
  on_times : List Nat
  off_times : List Nat
  states : List Event
  timer : Option TimerRec
  applied : List Event
  deriving DecidableEq, Repr

/-- Constructor `PowerScheduler.__init__` (power.py lines 134-157): stores
the inputs, builds the sorted `states` table, and sets `self._timer = None`.
Note it is total — it performs no emptiness check and the source defines no
`ConfigurationError` anywhere. -/
def PowerScheduler.init (device : String) (on_times off_times : List Nat) :
    PowerSchedulerState :=
  { device := device
    on_times := on_times
    off_times := off_times
    states := mkStates on_times off_times
    timer := none
    applied := [] }

/-- Method `PowerScheduler.stop` (power.py lines 168-174):
`self._timer.cancel()`. When `self._timer` is still `None` this is an
attribute access on `None` and raises `AttributeError`; otherwise it marks
the pending timer cancelled. -/
def PowerScheduler.stop (s : PowerSchedulerState) :
    Except PyError PowerSchedulerState :=
  match s.timer with
  | none => .error .attributeError
  | some t => .ok { s with timer := some { t with cancelled := true } }

/-- Firing of the pending timer of the timer variant: a cancelled timer
never runs; a live one runs `PowerScheduler._event` (power.py
lines 193-207), which applies the scheduled state, computes the next
transition via `PowerScheduler._next` with the fired time as mark, and
installs a fresh (uncancelled) timer for it. -/
def PowerScheduler.fire (s : PowerSchedulerState) : PowerSchedulerState :=
  match s.timer with
  | none => s
  | some t =>
    if t.cancelled then s
    else
      match schedNext s.states t.ev.1 with
      | some (e, _) =>
        { s with applied := s.applied ++ [t.ev], timer := some { ev := e, cancelled := false } }
      | none =>
        { s with applied := s.applied ++ [t.ev], timer := none }

/-- Runtime state of a started `ThreadPowerScheduler` (power.py
lines 246-302): the inherited `self._timer` (never set by the thread
variant, so it stays `None`), the loop variable `state`, and logs of the
state applications and sleeps performed, used to express ordering claims. -/
structure ThreadSchedulerState where
  states : List Event
  timer : Option TimerRec
  cur : Event
  applied : List Event
  slept : List (Except PyError Int)
  deriving Repr

/-- Length of one day in seconds, used by the embedding of
`datetime.datetime.combine(date + dayOffset, time)`: the absolute instant of
a time-of-day `t` at day offset `d` from today, counted in seconds from
today's midnight, is `d * daySeconds + t`. -/
def daySeconds : Nat := 86400

/-- Start of `ThreadPowerScheduler.run` (power.py lines 251-265): resolve
the initial current event; `now` is the current time of day in seconds.
No state has been applied and no sleep performed yet when the loop is
entered. An empty table gives `none` (the `IndexError` of the fallback). -/
def ThreadPowerScheduler.startRun (states : List Event) (now : Nat) :
    Option ThreadSchedulerState :=
  (resolveInitial states now).map fun e =>
    { states := states, timer := none, cur := e, applied := [], slept := [] }

/-- One iteration of the `while True` loop of `ThreadPowerScheduler.run`
(power.py lines 267-296), with `now` the current time of day in seconds: it
first applies `state` via `turn_on`/`turn_off` (appended to `applied`), then
computes the next event and its absolute instant, advances `state`, and
last performs the suspension step (appended to `slept`). The log orders
record the source order: the application precedes the sleep. -/
def ThreadPowerScheduler.step (now : Nat) (s : ThreadSchedulerState) :
    ThreadSchedulerState :=
  let applied := s.applied ++ [s.cur]
  match nextAfter s.states s.cur with
  | some (e, d) =>
    let wake : Int := (d * daySeconds + e.1 : Nat)
    { s with
      applied := applied
      cur := e
      slept := s.slept ++ [suspension wake (now : Int)] }
  | none => { s with applied := applied }

/-- Method `stop` as inherited by `ThreadPowerScheduler` (power.py
lines 168-174 via the class at line 246): `self._timer.cancel()` on the
thread variant's state. The loop itself reads no flag this method could
set; the only datum it touches is `self._timer`. -/
def ThreadPowerScheduler.stop (s : ThreadSchedulerState) :
    Except PyError ThreadSchedulerState :=
  match s.timer with
  | none => .error .attributeError
  | some t => .ok { s with timer := some { t with cancelled := true } }

/-! ## Helper lemmas -/

/-- Filtering by an exact time commutes with `orderedInsert`: all entries the
insertion walks past have strictly smaller times than the inserted entry, so
per-time relative order is preserved. -/
lemma filter_orderedInsert (t : Nat) (a : Event) (l : List Event) :
    (List.orderedInsert eventLE a l).filter (fun e => e.1 == t) =
      if a.1 = t then a :: l.filter (fun e => e.1 == t)
      else l.filter (fun e => e.1 == t) := by
  induction l with
  | nil =>
    by_cases h : a.1 = t <;> simp [List.orderedInsert, List.filter_cons, h]
  | cons b l ih =>
    by_cases hab : eventLE a b
    · rw [List.orderedInsert_of_le _ _ hab]
      by_cases h : a.1 = t <;> simp [List.filter_cons, h]
    · have hba : b.1 < a.1 := Nat.lt_of_not_le hab
      have hao : List.orderedInsert eventLE a (b :: l) =
          b :: List.orderedInsert eventLE a l := by
        simp [List.orderedInsert, hab]
      rw [hao]
      by_cases h : a.1 = t
      · have hbt : ¬ b.1 = t := by omega
        simp [List.filter_cons, hbt, ih, h]
      · simp [List.filter_cons, ih, h]

/-- Filtering by an exact time commutes with the stable sort: this is the
stability property of `sorted` used at power.py line 146 — entries with equal
times keep their original relative order. -/
lemma filter_insertionSort (t : Nat) (l : List Event) :
    (List.insertionSort eventLE l).filter (fun e => e.1 == t) =
      l.filter (fun e => e.1 == t) := by
  induction l with
  | nil => rfl
  | cons a l ih =>
    show (List.orderedInsert eventLE a (List.insertionSort eventLE l)).filter _ = _
    rw [filter_orderedInsert]
    by_cases h : a.1 = t <;> simp [List.filter_cons, h, ih]

/-- The table built by the constructor is sorted ascending by time. -/
lemma sorted_mkStates (on_times off_times : List Nat) :
    List.Sorted eventLE (mkStates on_times off_times) :=
  List.sorted_insertionSort eventLE (mergedPairs on_times off_times)

/-- The last-match scan `for s in states: if s[0] <= now: state = s` is the
last element of the sublist of qualifying entries. -/
lemma foldl_scan (now : Nat) :
    ∀ (l : List Event) (acc : Option Event),
      l.foldl (fun acc e => if e.1 ≤ now then some e else acc) acc =
        ((l.filter (fun e => e.1 ≤ now)).getLast?).or acc := by
  intro l
  induction l with
  | nil => intro acc; simp
  | cons e l ih =>
    intro acc
    rw [List.foldl_cons, ih]
    by_cases he : e.1 ≤ now
    · rw [if_pos he, List.filter_cons, if_pos (by simpa using he)]
      cases hfl : l.filter (fun e => e.1 ≤ now) with
      | nil => simp
      | cons y ys =>
        obtain ⟨z, hz⟩ : ∃ z, (y :: ys).getLast? = some z :=
          Option.isSome_iff_exists.mp (List.getLast?_isSome.mpr (by simp))
        rw [List.getLast?_cons_cons, hz, Option.or_some, Option.or_some]
    · rw [if_neg he, List.filter_cons, if_neg (by simpa using he)]

/-- Every member of a `≤`-sorted event list has time at most the time of the
list's last element. -/
lemma mem_le_getLast :
    ∀ {l : List Event}, l.Sorted eventLE → ∀ {x : Event}, x ∈ l →
      ∃ z, l.getLast? = some z ∧ x.1 ≤ z.1 := by
  intro l
  induction l with
  | nil => intro _ x hx; cases hx
  | cons a l ih =>
    intro hs x hx
    cases l with
    | nil =>
      have hxa : x = a := by simpa using hx
      exact ⟨a, rfl, by simp [hxa]⟩
    | cons b l' =>
      rcases List.mem_cons.mp hx with hxa | hxm
      · obtain ⟨z, hz, _⟩ := ih hs.of_cons (List.mem_cons_self b l')
        refine ⟨z, by rw [List.getLast?_cons_cons, hz], ?_⟩
        have hzl : z ∈ b :: l' := by
          obtain ⟨hne, hzl⟩ := List.mem_getLast?_eq_getLast (by rw [hz]; rfl)
          exact hzl ▸ List.getLast_mem hne
        have := List.rel_of_sorted_cons hs z hzl
        simpa [hxa] using this
      · obtain ⟨z, hz, hle⟩ := ih hs.of_cons hxm
        exact ⟨z, by rw [List.getLast?_cons_cons, hz], hle⟩

/-! ## Claim theorems -/

/-- C9: for every pair of input lists, the constructed event table is the
stable ascending sort by time of the ON pairs followed by the OFF pairs:
it is sorted ascending by `timeOfDay`, it is a permutation of the merged
pair list (duplicates across the two lists are both retained), and for each
time value the entries carrying it are exactly the ON-list entries followed
by the OFF-list entries, in input order (stability; at equal times ON-list
entries precede OFF-list entries). -/
theorem C9_table_is_stable_sort (on_times off_times : List Nat) :
    List.Sorted eventLE (mkStates on_times off_times) ∧
    (mkStates on_times off_times).Perm (mergedPairs on_times off_times) ∧
    ∀ t : Nat,
      (mkStates on_times off_times).filter (fun e => e.1 == t) =
        ((on_times.filter (fun x => x == t)).map (fun x => (x, ON))) ++
        ((off_times.filter (fun x => x == t)).map (fun x => (x, OFF))) := by
  refine ⟨sorted_mkStates _ _, List.perm_insertionSort _ _, fun t => ?_⟩
  rw [mkStates, filter_insertionSort, mergedPairs, List.filter_append,
    List.filter_map, List.filter_map]
  rfl

/-- C1: for every non-empty schedule table and time-of-day `now`, the
initial-state query performed once at scheduler start returns exactly one
event: a member of the table whose time is the greatest value `≤ now`
among the table's entries; and if no entry's time is `≤ now`, it is the
table's last event in sort order (wraparound to the previous day). -/
theorem C1_resolve_current_event (on_times off_times : List Nat) (now : Nat)
    (h : mkStates on_times off_times ≠ []) :
    ∃ e, resolveInitial (mkStates on_times off_times) now = some e ∧
      e ∈ mkStates on_times off_times ∧
      ((∃ x ∈ mkStates on_times off_times, x.1 ≤ now) →
        e.1 ≤ now ∧ ∀ x ∈ mkStates on_times off_times, x.1 ≤ now → x.1 ≤ e.1) ∧
      ((∀ x ∈ mkStates on_times off_times, now < x.1) →
        (mkStates on_times off_times).getLast? = some e) := by
  have hsor := sorted_mkStates on_times off_times
  have hfold := foldl_scan now (mkStates on_times off_times) none
  cases hfq : ((mkStates on_times off_times).filter (fun e => e.1 ≤ now)).getLast? with
  | some z =>
    have hres : resolveInitial (mkStates on_times off_times) now = some z := by
      unfold resolveInitial
      rw [hfold, hfq, Option.or_some]
    have hzf : z ∈ (mkStates on_times off_times).filter (fun e => e.1 ≤ now) := by
      obtain ⟨hne, hzeq⟩ := List.mem_getLast?_eq_getLast (by rw [hfq]; rfl)
      exact hzeq ▸ List.getLast_mem hne
    obtain ⟨hzS, hznow⟩ := List.mem_filter.mp hzf
    have hznow' : z.1 ≤ now := by simpa using hznow
    refine ⟨z, hres, hzS, fun _ => ⟨hznow', fun x hx hxnow => ?_⟩, fun h4 => ?_⟩
    · have hxf : x ∈ (mkStates on_times off_times).filter (fun e => e.1 ≤ now) :=
        List.mem_filter.mpr ⟨hx, by simpa using hxnow⟩
      obtain ⟨z', hz', hle⟩ := mem_le_getLast (hsor.filter _) hxf
      rw [hfq] at hz'
      cases hz'
      exact hle
    · exact absurd (h4 z hzS) (by omega)
  | none =>
    have hfe : (mkStates on_times off_times).filter (fun e => e.1 ≤ now) = [] :=
      List.getLast?_eq_none_iff.mp hfq
    obtain ⟨z, hz⟩ : ∃ z, (mkStates on_times off_times).getLast? = some z :=
      Option.isSome_iff_exists.mp (List.getLast?_isSome.mpr h)
    have hres : resolveInitial (mkStates on_times off_times) now = some z := by
      unfold resolveInitial
      rw [hfold, hfq, Option.none_or, hz]
    have hzS : z ∈ mkStates on_times off_times := by
      obtain ⟨hne, hzeq⟩ := List.mem_getLast?_eq_getLast (by rw [hz]; rfl)
      exact hzeq ▸ List.getLast_mem hne
    refine ⟨z, hres, hzS, fun h3 => ?_, fun _ => hz⟩
    obtain ⟨x, hx, hxnow⟩ := h3
    have := List.filter_eq_nil_iff.mp hfe x hx
    exact absurd hxnow (by simpa using this)

/-- Witness for C1 on the table built from on-times `[360]`, off-times
`[720]` at `now = 400`. -/
theorem C1_resolve_current_event_witness :
    ∃ e, resolveInitial (mkStates [360] [720]) 400 = some e ∧
      e ∈ mkStates [360] [720] ∧
      ((∃ x ∈ mkStates [360] [720], x.1 ≤ 400) →
        e.1 ≤ 400 ∧ ∀ x ∈ mkStates [360] [720], x.1 ≤ 400 → x.1 ≤ e.1) ∧
      ((∀ x ∈ mkStates [360] [720], 400 < x.1) →
        (mkStates [360] [720]).getLast? = some e) :=
  C1_resolve_current_event [360] [720] 400 (by decide)

/-- Witness for C9 at concrete input lists containing a duplicate time. -/
theorem C9_table_is_stable_sort_witness :
    List.Sorted eventLE (mkStates [32400, 21600] [32400]) ∧
    (mkStates [32400, 21600] [32400]).Perm
      (mergedPairs [32400, 21600] [32400]) ∧
    ∀ t : Nat,
      (mkStates [32400, 21600] [32400]).filter (fun e => e.1 == t) =
        (([32400, 21600].filter (fun x => x == t)).map (fun x => (x, ON))) ++
        (([32400].filter (fun x => x == t)).map (fun x => (x, OFF))) :=
  C9_table_is_stable_sort [32400, 21600] [32400]

/-- C4 (evaluation at the failing input): constructing a scheduler with both
input lists empty succeeds and yields an empty event table. The constructor
is a total function — it performs no emptiness guard, and the source defines
no ConfigurationError anywhere — so no construction-time error is raised. -/
theorem C4_empty_lists_construction :
    PowerScheduler.init "pump" [] [] =
      { device := "pump", on_times := [], off_times := [], states := [],
        timer := none, applied := [] } := rfl

/-- C10: on every scheduler on which start() has never been called — the
state produced by the constructor, whose pending-timer field is still
None — stop() raises AttributeError (cancel is invoked on None) rather
than being a harmless no-op. -/
theorem C10_stop_before_start (device : String) (on_times off_times : List Nat) :
    PowerScheduler.stop (PowerScheduler.init device on_times off_times) =
      .error .attributeError := rfl

/-- Witness for C10 on a concrete never-started scheduler. -/
theorem C10_stop_before_start_witness :
    PowerScheduler.stop (PowerScheduler.init "pump" [21600] [43200]) =
      .error .attributeError :=
  C10_stop_before_start "pump" [21600] [43200]

/-- C7: whenever the computed wake instant is at or before the current
instant, the suspension step of the scheduler loop completes immediately:
it sleeps for 0 seconds (does not block) and raises no ValueError (the
negative-delay guard skips the sleep call, so it never underflows), letting
the loop proceed to the pending transition without delay. -/
theorem C7_nonpositive_delay (next now : Int) (h : next ≤ now) :
    suspension next now = .ok 0 := by
  have h1 : suspension next now =
      if 0 ≤ next - now then pySleep (next - now) else .ok 0 := rfl
  rw [h1]
  by_cases h0 : (0 : Int) ≤ next - now
  · rw [if_pos h0]
    have he : next - now = 0 := by omega
    rw [he]
    rfl
  · rw [if_neg h0]

/-- Witness for C7: a wake instant 2 seconds in the past sleeps 0 seconds. -/
theorem C7_nonpositive_delay_witness : suspension 5 7 = .ok 0 :=
  C7_nonpositive_delay 5 7 (by decide)

/-- C2 (evaluation at the failing input): on the table built from on-times
[06:00, 18:00] and off-times [12:00] (seconds 21600, 64800, 43200), with
the current event (06:00, ON), the timer variant's `_next` scan — whose
loop lacks a `break` — returns the LAST event strictly after the mark,
(18:00, ON), skipping (12:00, OFF); the thread loop's scan returns the
first such event, (12:00, OFF), which is what the claim (and `_next`'s own
docstring) describe. -/
theorem C2_next_scan_missing_break :
    schedNext (mkStates [21600, 64800] [43200]) 21600 =
      some ((64800, ON), 0) ∧
    nextAfter (mkStates [21600, 64800] [43200]) (21600, ON) =
      some ((43200, OFF), 0) := by
  exact ⟨rfl, rfl⟩

/-- C5 counterexample: on the degenerate tie table built from on-times
[09:00] and off-times [09:00] (seconds 32400) the table is
[(32400, ON), (32400, OFF)]; called on the earlier of the two
identical-time events, the next-event query does NOT return the later one:
the scan requires a strictly greater time, so it skips the later
identical-time entry and wraps to the table's first event — the very event
passed in — with dayOffset 1. -/
theorem C5_counterexample :
    mkStates [32400] [32400] = [(32400, ON), (32400, OFF)] ∧
    nextAfter (mkStates [32400] [32400]) (32400, ON) =
      some ((32400, ON), 1) ∧
    (nextAfter (mkStates [32400] [32400]) (32400, ON)).map Prod.fst ≠
      some ((32400 : Nat), OFF) := by
  refine ⟨rfl, rfl, ?_⟩
  decide

/-- C5 amended: the next-event query is a deterministic function returning
at most one result, and an identical-time event never qualifies as "next":
every result with dayOffset 0 is a table entry with time strictly greater
than the reference event's, and when no strictly later entry exists the
result is the table's first event with dayOffset 1 — so from the earlier of
two identical-time events the later one is skipped, never returned. -/
theorem C5_amended_tie_skipped (states : List Event) (cur e : Event) (d : Nat)
    (h : nextAfter states cur = some (e, d)) :
    (d = 0 ∧ cur.1 < e.1 ∧ e ∈ states) ∨
    (d = 1 ∧ states.head? = some e ∧ ∀ x ∈ states, x.1 ≤ cur.1) := by
  unfold nextAfter findNext at h
  cases hf : states.find? (fun x => cur.1 < x.1) with
  | some f =>
    rw [hf] at h
    cases h
    exact Or.inl ⟨rfl, by simpa using List.find?_some hf,
      List.mem_of_find?_eq_some hf⟩
  | none =>
    rw [hf] at h
    cases hh : states.head? with
    | none => rw [hh] at h; cases h
    | some y =>
      rw [hh] at h
      cases h
      refine Or.inr ⟨rfl, rfl, fun x hx => ?_⟩
      have := List.find?_eq_none.mp hf x hx
      simpa using this

/-- Witness for C5's amended theorem on the table from on-times [06:00],
off-times [12:00], reference event (06:00, ON). -/
theorem C5_amended_tie_skipped_witness :
    ((0 : Nat) = 0 ∧ (21600 : Nat) < 43200 ∧
      ((43200, OFF) : Event) ∈ mkStates [21600] [43200]) ∨
    ((0 : Nat) = 1 ∧ (mkStates [21600] [43200]).head? = some (43200, OFF) ∧
      ∀ x ∈ mkStates [21600] [43200], x.1 ≤ 21600) :=
  C5_amended_tie_skipped (mkStates [21600] [43200]) (21600, ON) (43200, OFF) 0 rfl

/-- C6 amended (timer variant, the part of the claim that holds): on a
timer-based scheduler whose stop() succeeds (its pending-timer field is
set, i.e. it was started), a second stop() returns exactly the same state —
repeated stops have no additional effect — and the cancelled pending timer
never fires, so no further state application occurs after stop takes
effect. -/
theorem C6_amended_stop_idempotent (s s' : PowerSchedulerState)
    (h : PowerScheduler.stop s = .ok s') :
    PowerScheduler.stop s' = .ok s' ∧
    PowerScheduler.fire s' = s' ∧
    (PowerScheduler.fire s').applied = s'.applied := by
  unfold PowerScheduler.stop at h
  cases ht : s.timer with
  | none => rw [ht] at h; cases h
  | some t =>
    rw [ht] at h
    cases h
    exact ⟨rfl, rfl, rfl⟩

/-- Concrete started timer-variant scheduler used by the C6 witness. -/
def demoStarted : PowerSchedulerState :=
  { device := "pump"
    on_times := [21600]
    off_times := [43200]
    states := mkStates [21600] [43200]
    timer := some { ev := (21600, ON), cancelled := false }
    applied := [] }

/-- Concrete state of `demoStarted` after one stop() call. -/
def demoStopped : PowerSchedulerState :=
  { demoStarted with timer := some { ev := (21600, ON), cancelled := true } }

/-- Witness for C6's amended theorem at a concrete started scheduler. -/
theorem C6_amended_stop_idempotent_witness :
    PowerScheduler.stop demoStopped = .ok demoStopped ∧
    PowerScheduler.fire demoStopped = demoStopped ∧
    (PowerScheduler.fire demoStopped).applied = demoStopped.applied :=
  C6_amended_stop_idempotent demoStarted demoStopped rfl

/-- Concrete started thread-variant scheduler used by the C6 counterexample:
the state of `ThreadPowerScheduler.run` after start() on the table from
on-times [06:00], off-times [12:00] at now = 08:20 (30000 s). -/
def demoThreadStarted : ThreadSchedulerState :=
  { states := mkStates [21600] [43200]
    timer := none
    cur := (21600, ON)
    applied := []
    slept := [] }

/-- C6 counterexample: on a started ThreadPowerScheduler — whose start()
runs the loop but never sets the inherited pending-timer field, which stays
None — stop() does not produce a stopped terminal state: it raises
AttributeError; and the loop, which consults no stop flag, still applies a
further transition afterwards, so calling stop() (once or twice) neither
stops the scheduler nor prevents further state applications. -/
theorem C6_counterexample :
    ThreadPowerScheduler.startRun (mkStates [21600] [43200]) 30000 =
      some demoThreadStarted ∧
    ThreadPowerScheduler.stop demoThreadStarted = .error .attributeError ∧
    (ThreadPowerScheduler.step 30000 demoThreadStarted).applied =
      [(21600, ON)] := by
  exact ⟨rfl, rfl, rfl⟩

/-- C8: for a single-event table whose event is strictly after `now` when
start() is called, the initial resolution wraps around to that same event
(treated as active since the previous day); entering the loop nothing has
been applied yet, and the first loop iteration applies exactly that one
state — and only then records its first timed wait (the application
precedes the sleep in the iteration, per the source order of
power.py lines 267-296). -/
theorem C8_single_future_event (t : Nat) (b : Bool) (now : Nat) (h : now < t) :
    resolveInitial [(t, b)] now = some (t, b) ∧
    ThreadPowerScheduler.startRun [(t, b)] now =
      some { states := [(t, b)], timer := none, cur := (t, b),
             applied := [], slept := [] } ∧
    (ThreadPowerScheduler.step now
      { states := [(t, b)], timer := none, cur := (t, b),
        applied := [], slept := [] }).applied = [(t, b)] ∧
    (ThreadPowerScheduler.step now
      { states := [(t, b)], timer := none, cur := (t, b),
        applied := [], slept := [] }).slept.length = 1 := by
  have hnle : ¬ t ≤ now := by omega
  have hres : resolveInitial [(t, b)] now = some (t, b) := by
    unfold resolveInitial
    simp [hnle]
  have hstep : nextAfter [(t, b)] (t, b) = some ((t, b), 1) := by
    unfold nextAfter findNext
    simp
  refine ⟨hres, ?_, ?_, ?_⟩
  · unfold ThreadPowerScheduler.startRun
    rw [hres]
    rfl
  · unfold ThreadPowerScheduler.step
    rw [hstep]
    rfl
  · unfold ThreadPowerScheduler.step
    rw [hstep]
    rfl

/-- Witness for C8 with the single event (09:00, ON) and now = 00:01:40. -/
theorem C8_single_future_event_witness :
    resolveInitial [(32400, ON)] 100 = some (32400, ON) ∧
    ThreadPowerScheduler.startRun [(32400, ON)] 100 =
      some { states := [(32400, ON)], timer := none, cur := (32400, ON),
             applied := [], slept := [] } ∧
    (ThreadPowerScheduler.step 100
      { states := [(32400, ON)], timer := none, cur := (32400, ON),
        applied := [], slept := [] }).applied = [(32400, ON)] ∧
    (ThreadPowerScheduler.step 100
      { states := [(32400, ON)], timer := none, cur := (32400, ON),
        applied := [], slept := [] }).slept.length = 1 :=
  C8_single_future_event 32400 ON 100 (by decide)

/-! ## Cyclic-order machinery for the next-event query (claim C3) -/

/-- Strict time order on events; tables whose merged input times are
pairwise distinct are strictly sorted in this order. -/
def eventLT (a b : Event) : Prop := a.1 < b.1

/-- A table built from input lists whose merged times are pairwise distinct
is strictly sorted by time. -/
lemma pairwise_lt_mkStates (on_times off_times : List Nat)
    (hnd : (on_times ++ off_times).Nodup) :
    List.Pairwise eventLT (mkStates on_times off_times) := by
  have hsor : List.Pairwise eventLE (mkStates on_times off_times) :=
    sorted_mkStates on_times off_times
  have hperm := List.perm_insertionSort eventLE (mergedPairs on_times off_times)
  have hmap : (mergedPairs on_times off_times).map Prod.fst =
      on_times ++ off_times := by
    simp [mergedPairs, Function.comp_def]
  have hndm : ((mkStates on_times off_times).map Prod.fst).Nodup := by
    have h1 : ((mergedPairs on_times off_times).map Prod.fst).Nodup := by
      rw [hmap]; exact hnd
    exact ((hperm.map Prod.fst).nodup_iff).mpr h1
  have hpne : List.Pairwise (fun a b : Event => a.1 ≠ b.1)
      (mkStates on_times off_times) := List.pairwise_map.mp hndm
  exact (hsor.and hpne).imp fun hab => Nat.lt_of_le_of_ne hab.1 hab.2

/-- On a strictly sorted table, the first-strictly-later scan applied to the
time of the entry at index `i` finds exactly the entry at index `i + 1`
(or nothing when `i` is the last index). -/
lemma findNext_at :
    ∀ (states : List Event), List.Pairwise eventLT states →
      ∀ (i : Nat) (e : Event), states[i]? = some e →
        findNext states e.1 = states[i+1]? := by
  intro states
  induction states with
  | nil => intro _ i e h; simp at h
  | cons a l ih =>
    intro hss i e h
    cases i with
    | zero =>
      rw [List.getElem?_cons_zero] at h
      cases h
      have hpa : ¬ (a.1 < a.1) := by omega
      cases l with
      | nil => simp [findNext, List.find?, hpa]
      | cons b l' =>
        have hab : a.1 < b.1 := (List.pairwise_cons.mp hss).1 b (List.mem_cons_self b l')
        simp [findNext, List.find?, hpa, hab]
    | succ j =>
      rw [List.getElem?_cons_succ] at h
      have hmem : e ∈ l := by
        obtain ⟨hlt, rfl⟩ := List.getElem?_eq_some.mp h
        exact List.getElem_mem hlt
      have hae : a.1 < e.1 := (List.pairwise_cons.mp hss).1 e hmem
      have hpa : ¬ (e.1 < a.1) := by omega
      have htail := ih (List.pairwise_cons.mp hss).2 j e h
      calc findNext (a :: l) e.1 = findNext l e.1 := by
            simp [findNext, List.find?, hpa]
        _ = l[j+1]? := htail
        _ = (a :: l)[j+2]? := (List.getElem?_cons_succ).symm

/-- Next-event query at a non-final index of a strictly sorted table:
the entry at the following index, same day. -/
lemma nextAfter_at_mid {states : List Event}
    (hss : List.Pairwise eventLT states) {i : Nat} {e e' : Event}
    (h : states[i]? = some e) (h' : states[i+1]? = some e') :
    nextAfter states e = some (e', 0) := by
  unfold nextAfter
  rw [findNext_at states hss i e h, h']

/-- Next-event query at the final index of a strictly sorted table: wrap to
the first entry with day offset 1. -/
lemma nextAfter_at_wrap {states : List Event}
    (hss : List.Pairwise eventLT states) {i : Nat} {e e0 : Event}
    (h : states[i]? = some e) (h' : states[i+1]? = none)
    (h0 : states[0]? = some e0) :
    nextAfter states e = some (e0, 1) := by
  unfold nextAfter
  rw [findNext_at states hss i e h, h', List.head?_eq_getElem?, h0]

/-- Unfolding equation for a successful step of the trajectory. -/
lemma iterateNext_step (states : List Event) (c : Nat) {e e' : Event}
    {d : Nat} (h : nextAfter states e = some (e', d)) :
    iterateNext states (c+1) e = (e', d) :: iterateNext states c e' := by
  have h0 : iterateNext states (c+1) e =
      match nextAfter states e with
      | some (e', d) => (e', d) :: iterateNext states c e'
      | none => [] := rfl
  rw [h0, h]

/-- Unfolding equation for a successful step of the endpoint function. -/
lemma iterEnd_step (states : List Event) (c : Nat) {e e' : Event}
    {d : Nat} (h : nextAfter states e = some (e', d)) :
    iterEnd states (c+1) e = iterEnd states c e' := by
  have h0 : iterEnd states (c+1) e =
      match nextAfter states e with
      | some (e', _) => iterEnd states c e'
      | none => none := rfl
  rw [h0, h]

/-- Unfolding equation for a failed step of the endpoint function. -/
lemma iterEnd_step_none (states : List Event) (c : Nat) {e : Event}
    (h : nextAfter states e = none) :
    iterEnd states (c+1) e = none := by
  have h0 : iterEnd states (c+1) e =
      match nextAfter states e with
      | some (e', _) => iterEnd states c e'
      | none => none := rfl
  rw [h0, h]

/-- Iterating the next-event query within one day: starting at index `i`
and taking `c` steps with `i + c` still in range visits the entries at
indices `i+1, …, i+c`, all with day offset 0, ending at index `i + c`. -/
lemma iterate_straight {states : List Event}
    (hss : List.Pairwise eventLT states) :
    ∀ (c i : Nat) (e : Event), states[i]? = some e → i + c < states.length →
      iterateNext states c e =
        ((states.drop (i+1)).take c).map (fun x => (x, 0)) ∧
      iterEnd states c e = states[i+c]? := by
  intro c
  induction c with
  | zero =>
    intro i e h _
    exact ⟨rfl, h.symm ▸ rfl⟩
  | succ c ih =>
    intro i e h hlt
    have hi1 : i + 1 < states.length := by omega
    have h' : states[i+1]? = some states[i+1] := List.getElem?_eq_getElem hi1
    have hna := nextAfter_at_mid hss h h'
    obtain ⟨ih1, ih2⟩ := ih (i+1) states[i+1] h' (by omega)
    constructor
    · rw [iterateNext_step states c hna, ih1,
        ← List.getElem_cons_drop states (i+1) hi1, List.take_succ_cons,
        List.map_cons]
    · rw [iterEnd_step states c hna, ih2,
        show i + 1 + c = i + (c + 1) from by omega]

/-- Iterating the next-event query from index `k` to the end of a strictly
sorted table and once past it: the remaining same-day entries are visited
with day offset 0, then the query wraps to the first entry with day
offset 1. -/
lemma iterate_phase1 {states : List Event}
    (hss : List.Pairwise eventLT states) {e0 : Event}
    (h0 : states[0]? = some e0) :
    ∀ (m k : Nat) (e : Event), states[k]? = some e →
      states.length = k + m + 1 →
      iterateNext states (m+1) e =
        ((states.drop (k+1)).map (fun x => (x, 0))) ++ [(e0, 1)] ∧
      iterEnd states (m+1) e = some e0 := by
  intro m
  induction m with
  | zero =>
    intro k e h hlen
    have h' : states[k+1]? = none := List.getElem?_eq_none (by omega)
    have hna := nextAfter_at_wrap hss h h' h0
    have hdrop : states.drop (k+1) = [] := List.drop_eq_nil_of_le (by omega)
    constructor
    · rw [iterateNext_step states 0 hna, hdrop]
      rfl
    · rw [iterEnd_step states 0 hna]
      rfl
  | succ m ih =>
    intro k e h hlen
    have hk1 : k + 1 < states.length := by omega
    have h' : states[k+1]? = some states[k+1] := List.getElem?_eq_getElem hk1
    have hna := nextAfter_at_mid hss h h'
    obtain ⟨ih1, ih2⟩ := ih (k+1) states[k+1] h' (by omega)
    constructor
    · rw [iterateNext_step states (m+1) hna, ih1,
        ← List.getElem_cons_drop states (k+1) hk1, List.map_cons]
      rfl
    · rw [iterEnd_step states (m+1) hna, ih2]

/-- Trajectories compose: `a + b` steps are the `a`-step trajectory followed
by the `b`-step trajectory from its endpoint. -/
lemma iterate_comp (states : List Event) :
    ∀ (a : Nat) (e e' : Event), iterEnd states a e = some e' → ∀ b,
      iterateNext states (a+b) e =
        iterateNext states a e ++ iterateNext states b e' ∧
      iterEnd states (a+b) e = iterEnd states b e' := by
  intro a
  induction a with
  | zero =>
    intro e e' h b
    have he : e = e' := by
      have : some e = some e' := h
      cases this; rfl
    subst he
    rw [Nat.zero_add]
    exact ⟨rfl, rfl⟩
  | succ a ih =>
    intro e e' h b
    cases hna : nextAfter states e with
    | none =>
      rw [iterEnd_step_none states a hna] at h
      cases h
    | some p =>
      obtain ⟨e₂, d⟩ := p
      rw [iterEnd_step states a hna] at h
      obtain ⟨ihtraj, ihend⟩ := ih e₂ e' h b
      have hadd : a + 1 + b = (a + b) + 1 := by omega
      constructor
      · rw [hadd, iterateNext_step states (a+b) hna, ihtraj,
          iterateNext_step states a hna]
        rfl
      · rw [hadd, iterEnd_step states (a+b) hna, ihend]

/-- C3 counterexample: on the degenerate tie table from the spec's own
scenario (on-times [09:00], off-times [09:00], seconds 32400), the
next-event query called on the first event returns that very event (with
dayOffset 1), and iterating it table-length (2) times visits (32400, ON)
twice and (32400, OFF) never — not every event exactly once — with the
dayOffsets of the 2 steps summing to 2, not 1. -/
theorem C3_counterexample :
    (32400, ON) ∈ mkStates [32400] [32400] ∧
    nextAfter (mkStates [32400] [32400]) (32400, ON) =
      some ((32400, ON), 1) ∧
    ¬ ((iterateNext (mkStates [32400] [32400]) 2 (32400, ON)).map
        Prod.fst).Perm (mkStates [32400] [32400]) ∧
    ((iterateNext (mkStates [32400] [32400]) 2 (32400, ON)).map
        Prod.snd).sum = 2 := by
  refine ⟨by decide, rfl, by decide, rfl⟩

/-- Cycle property of the next-event query over a strictly sorted table:
from any member, with at least two entries the query never returns its
argument, and iterating it table-length times visits the entries as a
permutation of the table, with day offsets summing to exactly 1, ending
back at the starting event. -/
lemma cycle_of_pairwise_lt (states : List Event)
    (hss : List.Pairwise eventLT states) (e : Event) (he : e ∈ states) :
    (2 ≤ states.length →
      ∀ x d, nextAfter states e = some (x, d) → x ≠ e) ∧
    ((iterateNext states states.length e).map Prod.fst).Perm states ∧
    ((iterateNext states states.length e).map Prod.snd).sum = 1 ∧
    iterEnd states states.length e = some e := by
  obtain ⟨k, hk, hke⟩ := List.mem_iff_getElem.mp he
  have hk? : states[k]? = some e := by rw [List.getElem?_eq_getElem hk, hke]
  have h0lt : 0 < states.length := by omega
  obtain ⟨e0, h0⟩ : ∃ z, states[0]? = some z := by
    rw [List.getElem?_eq_getElem h0lt]; exact ⟨_, rfl⟩
  have hlen : states.length = k + (states.length - k - 1) + 1 := by omega
  obtain ⟨ph1, ph2⟩ :=
    iterate_phase1 hss h0 (states.length - k - 1) k e hk? hlen
  obtain ⟨cm1, cm2⟩ :=
    iterate_comp states (states.length - k - 1 + 1) e e0 ph2 k
  obtain ⟨st1, st2⟩ := iterate_straight hss k 0 e0 h0 (by omega)
  have hn : states.length = (states.length - k - 1 + 1) + k := by omega
  have htraj : iterateNext states states.length e =
      ((states.drop (k+1)).map (fun x => (x, 0))) ++ [(e0, 1)] ++
        ((states.drop (0+1)).take k).map (fun x => (x, 0)) := by
    rw [hn, cm1, ph1, st1]
  obtain ⟨hlt0, h00⟩ := List.getElem?_eq_some.mp h0
  have hhead : e0 :: (states.drop (0+1)).take k = states.take (k+1) := by
    have hsplit : states[0] :: states.drop (0+1) = states.drop 0 :=
      List.getElem_cons_drop states 0 hlt0
    rw [List.drop_zero] at hsplit
    conv_rhs => rw [← hsplit]
    rw [List.take_succ_cons, h00]
  have hperm : ((iterateNext states states.length e).map Prod.fst).Perm
      states := by
    rw [htraj]
    have hfst : (((states.drop (k+1)).map (fun x => (x, 0)) ++ [(e0, 1)] ++
        ((states.drop (0+1)).take k).map (fun x => (x, 0))).map Prod.fst) =
        states.drop (k+1) ++ (e0 :: ((states.drop (0+1)).take k)) := by
      simp [List.map_append, List.map_map, Function.comp_def]
    rw [hfst, hhead]
    have hcomm : (states.drop (k+1) ++ states.take (k+1)).Perm
        (states.take (k+1) ++ states.drop (k+1)) := List.perm_append_comm
    rw [List.take_append_drop] at hcomm
    exact hcomm
  have hz : ∀ l : List Event,
      ((l.map (fun x => (x, (0 : Nat)))).map Prod.snd).sum = 0 := by
    intro l
    refine List.sum_eq_zero ?_
    intro x hx
    rw [List.map_map] at hx
    obtain ⟨y, _, rfl⟩ := List.mem_map.mp hx
    rfl
  have hsum : ((iterateNext states states.length e).map Prod.snd).sum = 1 := by
    rw [htraj, List.map_append, List.map_append, List.sum_append,
      List.sum_append, hz, hz]
    rfl
  have hend : iterEnd states states.length e = some e := by
    rw [hn, cm2, st2, Nat.zero_add]
    exact hk?
  refine ⟨?_, hperm, hsum, hend⟩
  intro h2 x d hx
  by_cases hk1 : k + 1 < states.length
  · rw [nextAfter_at_mid hss hk? (List.getElem?_eq_getElem hk1)] at hx
    cases hx
    have hlt : states[k].1 < states[k+1].1 :=
      List.pairwise_iff_getElem.mp hss k (k+1) hk hk1 (by omega)
    intro hcon
    rw [hke, hcon] at hlt
    exact absurd hlt (lt_irrefl _)
  · have h' : states[k+1]? = none := List.getElem?_eq_none (by omega)
    rw [nextAfter_at_wrap hss hk? h' h0] at hx
    cases hx
    have hlt : states[0].1 < states[k].1 :=
      List.pairwise_iff_getElem.mp hss 0 k hlt0 hk (by omega)
    intro hcon
    rw [h00, hke, hcon] at hlt
    exact absurd hlt (lt_irrefl _)

/-- C3 amended: for a table whose merged input times are pairwise distinct,
the next-event query never returns the event passed in whenever the table
has at least two events (a single-event table returns its only event with
dayOffset 1, and with duplicate times the query can also return its
argument — see the counterexample); and iterating it table-length times
from any table member visits every event exactly once (the visited events
are a permutation of the table), returns to the starting event, and the
day offsets of those steps sum to exactly 1. -/
theorem C3_amended_cycle (on_times off_times : List Nat)
    (hnd : (on_times ++ off_times).Nodup) (e : Event)
    (he : e ∈ mkStates on_times off_times) :
    (2 ≤ (mkStates on_times off_times).length →
      ∀ x d, nextAfter (mkStates on_times off_times) e = some (x, d) →
        x ≠ e) ∧
    ((iterateNext (mkStates on_times off_times)
        (mkStates on_times off_times).length e).map Prod.fst).Perm
      (mkStates on_times off_times) ∧
    ((iterateNext (mkStates on_times off_times)
        (mkStates on_times off_times).length e).map Prod.snd).sum = 1 ∧
    iterEnd (mkStates on_times off_times)
      (mkStates on_times off_times).length e = some e :=
  cycle_of_pairwise_lt (mkStates on_times off_times)
    (pairwise_lt_mkStates on_times off_times hnd) e he

/-- Witness for C3's amended theorem on the table from on-times
[06:00, 18:00] and off-times [12:00], starting at (12:00, OFF). -/
theorem C3_amended_cycle_witness :
    (2 ≤ (mkStates [21600, 64800] [43200]).length →
      ∀ x d, nextAfter (mkStates [21600, 64800] [43200])
          ((43200 : Nat), OFF) = some (x, d) → x ≠ ((43200 : Nat), OFF)) ∧
    ((iterateNext (mkStates [21600, 64800] [43200])
        (mkStates [21600, 64800] [43200]).length
        ((43200 : Nat), OFF)).map Prod.fst).Perm
      (mkStates [21600, 64800] [43200]) ∧
    ((iterateNext (mkStates [21600, 64800] [43200])
        (mkStates [21600, 64800] [43200]).length
        ((43200 : Nat), OFF)).map Prod.snd).sum = 1 ∧
    iterEnd (mkStates [21600, 64800] [43200])
      (mkStates [21600, 64800] [43200]).length
      ((43200 : Nat), OFF) = some ((43200 : Nat), OFF) :=
  C3_amended_cycle [21600, 64800] [43200] (by decide)
    ((43200 : Nat), OFF) (by decide)

end Aquaman
